import Mathlib

/-!
Verification of the shell-util library (Deno shell scripting helpers).

Strings are modelled as `List Char`.  The source files embedded here:
- `quoteString`, `quote` (template compiler) from mod.ts;
- `wrapTagFunction` / `TagFunction.map` composable tag functions from mod.ts;
- `action` / `timeoutPromise` supervisor from action.ts;
- the executors `execOpt` (current revision) and `shOptBin` (earlier revision)
  as event traces.
-/

/-! ## Quoting engine (mod.ts `quoteString`) -/

/-- The safe character class of `safeShellCharsRE = /^[A-Za-z0-9,:=_\.\/\-]+$/`
(one character's membership; the `+` of the regex is the nonemptiness check at use site). -/
def isSafeChar (c : Char) : Bool :=
  c.isAlpha || c.isDigit || c == ',' || c == ':' || c == '=' || c == '_' ||
    c == '.' || c == '/' || c == '-'

/-- Embedding of `s.replace(/'+/g, (m) => `'"` + m + `"'`)`: every maximal run of
single-quote characters is replaced by `'"<run>"'`.  Written as a character-wise
state machine (`inRun` = currently inside a run of quote characters) so that the
function is structurally recursive; a maximal run contributes the opening `'"`,
the run itself, and the closing `"'`. -/
def replaceQuoteRuns (inRun : Bool) : List Char → List Char
  | [] => if inRun then ['"', '\''] else []
  | c :: rest =>
    if c = '\'' then
      if inRun then c :: replaceQuoteRuns true rest
      else '\'' :: '"' :: c :: replaceQuoteRuns true rest
    else
      if inRun then '"' :: '\'' :: c :: replaceQuoteRuns false rest
      else c :: replaceQuoteRuns false rest

/-- Embedding of `s.replace(/^''/, "")`: drop a leading pair of single quotes. -/
def stripLeadPair (s : List Char) : List Char :=
  match s with
  | c1 :: c2 :: rest => if c1 = '\'' ∧ c2 = '\'' then rest else c1 :: c2 :: rest
  | _ => s

/-- Embedding of `s.replace(/''$/, "")`: drop a trailing pair of single quotes. -/
def stripTrailPair (s : List Char) : List Char :=
  (stripLeadPair s.reverse).reverse

/-- Embedding of mod.ts `quoteString` (current revision):
if the input is empty return `''`; if it matches the safe class return it
unchanged; otherwise wrap in single quotes with every maximal run of `'`
replaced by `'"<run>"'`, then strip a leading and a trailing `''` pair. -/
def quoteString (s : List Char) : List Char :=
  if s.isEmpty then ['\'', '\'']
  else if s.all isSafeChar then s
  else stripTrailPair (stripLeadPair ('\'' :: replaceQuoteRuns false s ++ ['\'']))

/-! ## Reference de-quoting function (the shell's quoting grammar)

A tokenizer for one shell word made of single-quoted spans, double-quoted spans
and bare safe characters.  Inside a double-quoted span only characters that the
shell treats literally are accepted (no `$`, backtick, backslash, `"`). -/

/-- Characters literal inside a double-quoted shell span: everything except
`$` (36), backtick (96), backslash (92) and `"` (34). -/
def dqLiteral (c : Char) : Bool :=
  !(c.toNat == 36) && !(c.toNat == 96) && !(c.toNat == 92) && !(c.toNat == 34)

/-- Tokenizer mode: outside any quotes, inside single quotes, inside double quotes. -/
inductive DqMode
  | out
  | sgl
  | dbl
deriving DecidableEq

/-- Reference de-quoting state machine over the shell's quoting grammar.
Returns the recovered argument text, or `none` if the input is not one
well-formed shell word. -/
def dq : DqMode → List Char → Option (List Char)
  | .out, [] => some []
  | .out, c :: rest =>
    if c = '\'' then dq .sgl rest
    else if c = '"' then dq .dbl rest
    else if isSafeChar c then (dq .out rest).map (fun t => c :: t)
    else none
  | .sgl, [] => none
  | .sgl, c :: rest =>
    if c = '\'' then dq .out rest
    else (dq .sgl rest).map (fun t => c :: t)
  | .dbl, [] => none
  | .dbl, c :: rest =>
    if c = '"' then dq .out rest
    else if dqLiteral c then (dq .dbl rest).map (fun t => c :: t)
    else none

/-- De-quote a complete shell word (start outside quotes). -/
def dequote (s : List Char) : Option (List Char) :=
  dq .out s

/-! ## Command template compiler (mod.ts `quote`) -/

/-- One interpolated template argument: a scalar (string/number/boolean/bigint,
already coerced to text as JS `String(v)` does) or an array of scalars. -/
inductive ShellArg
  | scalar (s : List Char)
  | arr (elems : List (List Char))

/-- Embedding of JS `array.join(" ")`. -/
def joinSpace : List (List Char) → List Char
  | [] => []
  | [x] => x
  | x :: y :: rest => x ++ ' ' :: joinSpace (y :: rest)

/-- Concatenation of a list of strings (the trailing `result += pieces[i]` loop). -/
def flattenPieces : List (List Char) → List Char
  | [] => []
  | x :: xs => x ++ flattenPieces xs

/-- The loop of mod.ts `quote` (current revision): `result` is the accumulator,
the first list the remaining pieces `pieces[i+1..]`, the second the remaining
arguments.  An empty array argument contributes nothing and absorbs one space:
a leading space of the next piece if present, else a trailing space of the
accumulated result.  (When the pieces run out before the arguments — impossible
for a template-literal call, where `pieces.length = args.length + 1` — the JS
code would fault on `undefined`; that unreachable case returns the accumulator.) -/
def quoteAux (result : List Char) : List (List Char) → List ShellArg → List Char
  | restPieces, [] => result ++ flattenPieces restPieces
  | [], _ :: _ => result
  | p :: ps, a :: as =>
    match a with
    | .scalar s => quoteAux (result ++ quoteString s ++ p) ps as
    | .arr elems =>
      let aarg := joinSpace (elems.map quoteString)
      if aarg.isEmpty then
        if p.head? = some ' ' then quoteAux (result ++ p.tail) ps as
        else if result.getLast? = some ' ' then quoteAux (result.dropLast ++ p) ps as
        else quoteAux (result ++ p) ps as
      else quoteAux (result ++ aarg ++ p) ps as

/-- Embedding of mod.ts `quote`: interleave the template pieces with the quoted
arguments (`result = pieces[0]` then the loop). -/
def quote (pieces : List (List Char)) (args : List ShellArg) : List Char :=
  match pieces with
  | [] => []
  | p0 :: rest => quoteAux p0 rest args

/-! ## Spec-side formulation of `quoteString` (for the refinement claim)

The spec describes the substitution as: decompose the input into maximal runs,
replace every maximal run of `'` characters with `'"<run>"'`, keep the other
runs, wrap in single quotes and strip the boundary `''` pairs.  This is a
genuinely different formulation (run decomposition + per-run replacement)
compared with the character-wise state machine embedded from the source. -/

/-- Decompose a string into maximal runs of quote characters and maximal runs
of non-quote characters. -/
def maximalRuns : List Char → List (List Char)
  | [] => []
  | c :: rest =>
    if c = '\'' then
      (c :: rest.takeWhile (fun x => decide (x = '\''))) ::
        maximalRuns (rest.dropWhile (fun x => decide (x = '\'')))
    else
      (c :: rest.takeWhile (fun x => !decide (x = '\''))) ::
        maximalRuns (rest.dropWhile (fun x => !decide (x = '\'')))
termination_by l => l.length
decreasing_by
  · simp only [List.length_cons]
    have := (List.dropWhile_sublist (l := rest) (fun x => decide (x = '\''))).length_le
    omega
  · simp only [List.length_cons]
    have := (List.dropWhile_sublist (l := rest) (fun x => !decide (x = '\''))).length_le
    omega

/-- Concatenated image of a list under a list-valued function. -/
def concatMapRuns (f : List Char → List Char) : List (List Char) → List Char
  | [] => []
  | g :: gs => f g ++ concatMapRuns f gs

/-- Spec-side substitution: every maximal run of `'` becomes `'"<run>"'`,
every other maximal run is kept. -/
def replaceRunsSpec (s : List Char) : List Char :=
  concatMapRuns
    (fun g => if g.all (fun x => decide (x = '\'')) then
        '\'' :: '"' :: g ++ ['"', '\''] else g)
    (maximalRuns s)

/-- `quoteString` as the spec phrases it (empty-input and safe-class branches as
stated by the spec, then the run-wise substitution, wrapping, and boundary strip). -/
def quoteStringSpec (s : List Char) : List Char :=
  if s.isEmpty then ['\'', '\'']
  else if s.all isSafeChar then s
  else stripTrailPair (stripLeadPair ('\'' :: replaceRunsSpec s ++ ['\'']))

/-! ## Composable tag functions (mod.ts `wrapTagFunction`)

JS side effects (console logging inside `pre`/`post`/`finalize`, the execution
itself) and exceptions are modelled by a trace-plus-exception monad: a
computation takes the trace so far and returns an `Except` outcome together
with the extended trace.  The single-threaded JS event loop makes `await`
sequential, so sequencing binds is a faithful model of the control flow. -/

/-- Observable events of one tag-function invocation. -/
inductive TraceEv
  | preEv (n : Nat)
  | postEv (n : Nat)
  | finEv (n : Nat)
  | execEv (cmd : List Char)
deriving DecidableEq

/-- Effectful computation: exception (error code) plus an event trace. -/
def Eff (α : Type) : Type :=
  List TraceEv → Except Nat α × List TraceEv

/-- Pure value. -/
def Eff.pure (a : α) : Eff α := fun tr => (.ok a, tr)

/-- Sequencing (JS `await` / statement order). -/
def Eff.bind (x : Eff α) (f : α → Eff β) : Eff β := fun tr =>
  match x tr with
  | (.ok a, tr') => f a tr'
  | (.error e, tr') => (.error e, tr')

/-- Record an observable event. -/
def Eff.emit (ev : TraceEv) : Eff Unit := fun tr => (.ok (), tr ++ [ev])

/-- Throw (JS `throw`), with an error code identifying the raised value. -/
def Eff.raise (e : Nat) : Eff α := fun tr => (.error e, tr)

/-- JS `try { body } finally { fin }`: `fin` always runs after `body`; a normal
`fin` preserves `body`'s outcome (value or raised error); a `fin` that itself
throws replaces the outcome. -/
def Eff.tryFinally (body : Eff α) (fin : Eff Unit) : Eff α := fun tr =>
  match body tr with
  | (.ok a, tr') =>
    (match fin tr' with
     | (.ok _, tr'') => (.ok a, tr'')
     | (.error e, tr'') => (.error e, tr''))
  | (.error e, tr') =>
    (match fin tr' with
     | (.ok _, tr'') => (.error e, tr'')
     | (.error e2, tr'') => (.error e2, tr''))

/-- `MapParameters<T, U>` of mod.ts: optional command transform `pre`, required
result transform `post`, optional cleanup `finalize`.  The JS functions may
have side effects and throw, hence the `Eff` codomains. -/
structure MapParameters (T U : Type) where
  pre : Option (List Char → Eff (List Char))
  post : T → Eff U
  finalize : Option (Eff Unit)

/-- A tag function as built by `wrapTagFunction`: the callable itself, the
captured executor, and the accumulated finalizer list (entries may be absent,
as `p.finalize` is optional). -/
structure TagFunction (T : Type) where
  call : List (List Char) → List ShellArg → Eff T
  exec : List Char → Eff T
  finalizers : List (Option (Eff Unit))

/-- `p.pre ? p.pre(cmd) : cmd`. -/
def applyPre (pre : Option (List Char → Eff (List Char))) (cmd : List Char) :
    Eff (List Char) :=
  match pre with
  | some f => f cmd
  | none => Eff.pure cmd

/-- `f?.()` on one optional finalizer. -/
def runOptFin (f : Option (Eff Unit)) : Eff Unit :=
  match f with
  | some e => e
  | none => Eff.pure ()

/-- `for (const f of finalizers) f?.();` — run in order; a throwing finalizer
aborts the loop (JS semantics). -/
def runFinalizers : List (Option (Eff Unit)) → Eff Unit
  | [] => Eff.pure ()
  | f :: fs => Eff.bind (runOptFin f) (fun _ => runFinalizers fs)

/-- `ff.map(arg)` of `wrapTagFunction`: the new callable compiles the template,
applies the new `pre` to the compiled command, hands it to the receiver's
captured `exec`, applies the new `post` to the result, and in a `finally`
region runs the receiver's accumulated finalizers followed by the new
`finalize`; the new node's executor composes the same way and its finalizer
list appends `p.finalize`. -/
def TagFunction.map (tf : TagFunction T) (p : MapParameters T U) : TagFunction U where
  call := fun pieces args =>
    Eff.tryFinally
      (Eff.bind (applyPre p.pre (quote pieces args)) (fun c =>
        Eff.bind (tf.exec c) (fun r => p.post r)))
      (Eff.bind (runFinalizers tf.finalizers) (fun _ => runOptFin p.finalize))
  exec := fun cmd =>
    Eff.bind (applyPre p.pre cmd) (fun c =>
      Eff.bind (tf.exec c) (fun r => p.post r))
  finalizers := tf.finalizers ++ [p.finalize]

/-- The base tag function produced by `shOpt` via `wrapTagFunction(f, exec, [])`:
calling it compiles the template and executes, with no finalizers. -/
def wrapBase (exec : List Char → Eff T) : TagFunction T where
  call := fun pieces args => exec (quote pieces args)
  exec := exec
  finalizers := []

/-- A chain of `.map` attachments in attach order (`foldl`), as in
`sh.map(p1).map(p2)...` with a common result type. -/
def chainTagFunction (base : TagFunction T) (ps : List (MapParameters T T)) :
    TagFunction T :=
  ps.foldl (fun t p => t.map p) base

/-! ## Action supervisor (action.ts `action` / `timeoutPromise`)

Real time is abstracted: `timerFirst` states whether the `setTimeout` timer
fires before the work promise settles, and the work promise's settlement is a
value or a raised error.  Timer bookkeeping (`TimeoutCookie`, `setTimeout` and
`clearTimeout` calls) is tracked explicitly. -/

/-- The errors distinguished by `action`'s catch clause. -/
inductive ActErr
  | skipErr
  | timeoutErr
  | shellErr (code : Nat)
  | otherErr (n : Nat)
deriving DecidableEq

/-- `TimeoutCookie` of action.ts. -/
structure TimeoutCookie where
  timeoutId : Option Nat
deriving DecidableEq

/-- Observable timer bookkeeping: durations (in seconds) of `setTimeout` calls
made, and the number of `clearTimeout` calls. -/
structure TimerLog where
  sets : List ℚ
  clears : Nat
deriving DecidableEq

/-- `clearTimeoutCookie`: call `clearTimeout` and reset the id, only when an id
is pending. -/
def clearTimeoutCookie (tc : TimeoutCookie) (log : TimerLog) :
    TimeoutCookie × TimerLog :=
  match tc.timeoutId with
  | some _ => ({ timeoutId := none }, { log with clears := log.clears + 1 })
  | none => (tc, log)

/-- Config of action.ts restricted to the field the claims are about
(`timeoutSeconds`; verbosity/colors/formatOptions only affect logging). -/
structure ActionConfig where
  timeoutSeconds : Option ℚ

/-- `defaultConfig` of action.ts (its `timeoutSeconds` field). -/
def defaultConfig : ActionConfig where
  timeoutSeconds := some 120

/-- `config?.timeoutSeconds ?? defaultConfig?.timeoutSeconds ?? 120`. -/
def effectiveTimeoutSeconds (config : Option ActionConfig) : ℚ :=
  ((config.bind (fun c => c.timeoutSeconds)).getD
    ((defaultConfig.timeoutSeconds).getD 120))

/-- `timeoutPromise(tc, p, timeoutSeconds)`: arm the timer (storing the id in
the cookie), race the work promise against it, and clear the cookie after a
*successful* await — when the race rejects (the work raised), the clearing
line is skipped and the rejection propagates (it is `action`'s `finally` that
clears then).  `Sum.inr ()` stands for the private `timeoutSymbol`. -/
def timeoutPromiseModel (work : Except ActErr T) (timerFirst : Bool)
    (timeoutSeconds : ℚ) (_tc : TimeoutCookie) (log : TimerLog) :
    Except ActErr (T ⊕ Unit) × TimeoutCookie × TimerLog :=
  let tc' : TimeoutCookie := { timeoutId := some 0 }
  let log' : TimerLog := { log with sets := log.sets ++ [timeoutSeconds] }
  if timerFirst then
    let (tc'', log'') := clearTimeoutCookie tc' log'
    (.ok (.inr ()), tc'', log'')
  else
    match work with
    | .ok v =>
      let (tc'', log'') := clearTimeoutCookie tc' log'
      (.ok (.inl v), tc'', log'')
    | .error e => (.error e, tc', log')

/-- `action(label, f, config)` of action.ts (current src revision, which passes
no signal to `f`): run `timeoutPromise` over the work outcome; translate the
timeout symbol into a raised `TimeoutError`; catch `SkipError` and return
`undefined` (modelled `none`) without re-raising; re-raise anything else
unchanged; clear the timeout cookie in `finally`.  Returns the outcome visible
to the caller, the final cookie, and the timer log. -/
def actionModel (work : Except ActErr T) (timerFirst : Bool)
    (config : Option ActionConfig) :
    Except ActErr (Option T) × TimeoutCookie × TimerLog :=
  let tc0 : TimeoutCookie := { timeoutId := none }
  let log0 : TimerLog := { sets := [], clears := 0 }
  let timeoutSeconds := effectiveTimeoutSeconds config
  let (res, tc1, log1) := timeoutPromiseModel work timerFirst timeoutSeconds tc0 log0
  let outcome : Except ActErr (Option T) :=
    match res with
    | .ok (.inr _) => .error .timeoutErr
    | .ok (.inl v) => .ok (some v)
    | .error e => match e with
      | .skipErr => .ok none
      | e' => .error e'
  let (tc2, log2) := clearTimeoutCookie tc1 log1
  (outcome, tc2, log2)

/-! ## Signal-passing action supervisor (modelled from the spec) -/

/-- Observable events of a timed-out supervised action. -/
inductive SigEv
  | abortSignal
  | raiseTimeout
deriving DecidableEq

/-- Modelled from the spec: the signal-passing variant of the action supervisor
(the `action` overload whose `work` receives a cancellation signal, together
with `shActionOpt`) is referenced by the repository's examples
(`examples/action.ts` calls `action(label, async (signal) => ...)` and
`shActionOpt({ signal })`) but its definition is absent from src — the action.ts
present in src holds an earlier `action` whose `work` takes no parameter.
Per the spec (§4.5): the work races against the timer; if the timer fires
first, the cancellation signal is communicated to `work` (so it can observe it
as aborted and terminate an in-flight subprocess) and then a distinguished
timeout failure is raised to the caller; otherwise the behavior is that of
`actionModel`.  The event list records, in order, the abort of the signal and
the raising of the timeout error. -/
def actionWithSignalModel (work : Except ActErr T) (timerFirst : Bool) :
    Except ActErr (Option T) × Bool × List SigEv :=
  if timerFirst then
    -- timer fired first: abort the signal handed to `work`, then raise.
    (.error .timeoutErr, true, [.abortSignal, .raiseTimeout])
  else
    match work with
    | .ok v => (.ok (some v), false, [])
    | .error .skipErr => (.ok none, false, [])
    | .error e => (.error e, false, [])

/-! ## Executor input-stream ordering (mod.ts `execOpt` and legacy `shOptBin`)

The asynchronous I/O steps of one execution are modelled as an ordered event
list (the single-threaded event loop sequences the `await`s in program order). -/

/-- I/O steps of one subprocess execution. -/
inductive ExecEv
  | spawn
  | writeStdin (payload : List Nat)
  | closeStdin
  | collectOutput
  | closeProcess
deriving DecidableEq

/-- Event order of `execOpt` (current mod.ts revision): spawn; if stdin was
supplied, write the whole payload; close the input stream; then await
`cp.output()` (exit status, stdout, stderr). -/
def execOptEvents (stdin : Option (List Nat)) : List ExecEv :=
  [.spawn] ++
    (match stdin with
     | some payload => [.writeStdin payload]
     | none => []) ++
    [.closeStdin, .collectOutput]

/-- Event order of the legacy `shOptBin` (earlier mod.ts revision): spawn; await
`Promise.all([p.status(), p.output(), p.stderrOutput()])`; only then write the
stdin payload if supplied; then `p.close()` — the input stream itself is never
closed. -/
def shOptBinEvents (stdin : Option (List Nat)) : List ExecEv :=
  [.spawn, .collectOutput] ++
    (match stdin with
     | some payload => [.writeStdin payload]
     | none => []) ++
    [.closeProcess]

/-- The ordering property the claim states: the payload is written, then the
input stream closed, then (and only then) the output collected. -/
def writesThenClosesThenCollects (evs : List ExecEv) (payload : List Nat) : Prop :=
  ∃ a b c d, evs =
    a ++ [.writeStdin payload] ++ b ++ [.closeStdin] ++ c ++ [.collectOutput] ++ d

/-! ## Concrete instrumented tag-function layers (order observation) -/

/-- A base executor that records the executed command and returns exit code 0. -/
def loggingExec : List Char → Eff Nat :=
  fun cmd => Eff.bind (Eff.emit (.execEv cmd)) (fun _ => Eff.pure 0)

/-- Map parameters whose three stages log themselves (layer number `n`) and pass
values through unchanged. -/
def loggingLayer (n : Nat) : MapParameters Nat Nat where
  pre := some (fun c => Eff.bind (Eff.emit (.preEv n)) (fun _ => Eff.pure c))
  post := fun r => Eff.bind (Eff.emit (.postEv n)) (fun _ => Eff.pure r)
  finalize := some (Eff.emit (.finEv n))

/-- Like `loggingLayer`, but the post stage raises error `e` after logging. -/
def raisingLayer (n e : Nat) : MapParameters Nat Nat where
  pre := some (fun c => Eff.bind (Eff.emit (.preEv n)) (fun _ => Eff.pure c))
  post := fun _ => Eff.bind (Eff.emit (.postEv n)) (fun _ => Eff.raise e)
  finalize := some (Eff.emit (.finEv n))

/-! ## Lemmas about the safe class and the de-quoter -/

theorem safeChar_ne_quote {c : Char} (h : isSafeChar c = true) : c ≠ '\'' := by
  rintro rfl
  exact absurd h (by decide)

theorem safeChar_ne_dquote {c : Char} (h : isSafeChar c = true) : c ≠ '"' := by
  rintro rfl
  exact absurd h (by decide)

theorem dq_out_safe : ∀ (s : List Char), s.all isSafeChar = true → dq .out s = some s := by
  intro s hs
  induction s with
  | nil => rfl
  | cons c rest ih =>
    simp only [List.all_cons, Bool.and_eq_true] at hs
    rw [dq, if_neg (safeChar_ne_quote hs.1), if_neg (safeChar_ne_dquote hs.1),
      if_pos hs.1, ih hs.2]
    rfl

theorem dq_sgl_cons {c : Char} (ys : List Char) (h : c ≠ '\'') :
    dq .sgl (c :: ys) = (dq .sgl ys).map (fun t => c :: t) := by
  rw [dq, if_neg h]

theorem dq_sgl_append :
    ∀ (content : List Char), (∀ x ∈ content, x ≠ '\'') → ∀ (b : List Char),
      dq .sgl (content ++ '\'' :: b) = (dq .out b).map (fun t => content ++ t) := by
  intro content
  induction content with
  | nil =>
    intro _ b
    rw [List.nil_append, dq, if_pos rfl]
    cases dq .out b <;> simp
  | cons c rest ih =>
    intro h b
    rw [List.cons_append, dq_sgl_cons _ (h c (by simp)),
      ih (fun x hx => h x (by simp [hx])) b]
    cases dq .out b <;> simp

theorem dq_dbl_append :
    ∀ (content : List Char),
      (∀ x ∈ content, x ≠ '"') → (∀ x ∈ content, dqLiteral x = true) →
      ∀ (b : List Char),
      dq .dbl (content ++ '"' :: b) = (dq .out b).map (fun t => content ++ t) := by
  intro content
  induction content with
  | nil =>
    intro _ _ b
    rw [List.nil_append, dq, if_pos rfl]
    cases dq .out b <;> simp
  | cons c rest ih =>
    intro h1 h2 b
    rw [List.cons_append, dq, if_neg (h1 c (by simp)), if_pos (h2 c (by simp)),
      ih (fun x hx => h1 x (by simp [hx])) (fun x hx => h2 x (by simp [hx])) b]
    cases dq .out b <;> simp

/-! ## Lemmas about the quote-run substitution -/

theorem rqr_false_append :
    ∀ (b : List Char), (∀ x ∈ b, x ≠ '\'') → ∀ (z : List Char),
      replaceQuoteRuns false (b ++ z) = b ++ replaceQuoteRuns false z := by
  intro b
  induction b with
  | nil => intro _ z; rfl
  | cons c rest ih =>
    intro h z
    rw [List.cons_append, replaceQuoteRuns, if_neg (h c (by simp))]
    simp only [if_neg, Bool.false_eq_true, reduceIte]
    rw [ih (fun x hx => h x (by simp [hx])) z]
    rfl

theorem rqr_true_append :
    ∀ (q : List Char), (∀ x ∈ q, x = '\'') → ∀ (z : List Char),
      replaceQuoteRuns true (q ++ z) = q ++ replaceQuoteRuns true z := by
  intro q
  induction q with
  | nil => intro _ z; rfl
  | cons c rest ih =>
    intro h z
    rw [List.cons_append, replaceQuoteRuns, if_pos (h c (by simp))]
    simp only [reduceIte]
    rw [ih (fun x hx => h x (by simp [hx])) z, List.cons_append]

theorem rqr_true_exit :
    ∀ (z : List Char), z.head? ≠ some '\'' →
      replaceQuoteRuns true z = '"' :: '\'' :: replaceQuoteRuns false z := by
  intro z hz
  cases z with
  | nil => rfl
  | cons c rest =>
    have hc : c ≠ '\'' := by
      intro h
      exact hz (by simp [h])
    rw [replaceQuoteRuns, if_neg hc]
    simp only [reduceIte]
    conv_rhs => rw [replaceQuoteRuns, if_neg hc]
    simp only [Bool.false_eq_true, reduceIte]

theorem rqr_cons_ne {c : Char} (rest : List Char) (h : c ≠ '\'') :
    replaceQuoteRuns false (c :: rest) = c :: replaceQuoteRuns false rest := by
  rw [replaceQuoteRuns, if_neg h]
  simp only [Bool.false_eq_true, reduceIte]

theorem rqr_ne_nil : ∀ (s : List Char), s ≠ [] → replaceQuoteRuns false s ≠ [] := by
  intro s hs
  cases s with
  | nil => exact absurd rfl hs
  | cons c rest =>
    by_cases hc : c = '\''
    · subst hc
      rw [replaceQuoteRuns, if_pos rfl]
      simp
    · rw [rqr_cons_ne rest hc]
      simp

theorem dropWhile_head_false {p : Char → Bool} :
    ∀ (l : List Char) (x : Char) (t : List Char),
      l.dropWhile p = x :: t → p x = false := by
  intro l
  induction l with
  | nil => intro x t h; simp at h
  | cons c rest ih =>
    intro x t h
    rw [List.dropWhile_cons] at h
    by_cases hc : p c = true
    · rw [if_pos hc] at h
      exact ih x t h
    · rw [if_neg hc] at h
      cases h
      simpa using hc

theorem dropWhile_head?_ne_quote (rest : List Char) :
    (rest.dropWhile (fun x => decide (x = '\''))).head? ≠ some '\'' := by
  intro h
  cases hd : rest.dropWhile (fun x => decide (x = '\'')) with
  | nil => rw [hd] at h; simp at h
  | cons x t =>
    rw [hd] at h
    simp only [List.head?_cons, Option.some.injEq] at h
    have := dropWhile_head_false rest x t hd
    rw [h] at this
    simp at this

/-- Decomposition of the substitution at a quote run: for `s = '\'' :: rest`,
the output opens the bracketing, emits the whole maximal run, closes it and
continues after the run. -/
theorem rqr_decomp (rest : List Char) :
    replaceQuoteRuns false ('\'' :: rest) =
      '\'' :: '"' :: ('\'' :: rest.takeWhile (fun x => decide (x = '\''))) ++
        '"' :: '\'' ::
          replaceQuoteRuns false (rest.dropWhile (fun x => decide (x = '\''))) := by
  rw [replaceQuoteRuns, if_pos rfl]
  simp only [Bool.false_eq_true, reduceIte]
  have hq : ∀ x ∈ rest.takeWhile (fun x => decide (x = '\'')), x = '\'' := by
    intro x hx
    simpa using List.mem_takeWhile_imp hx
  conv_lhs =>
    rw [show rest = rest.takeWhile (fun x => decide (x = '\'')) ++
      rest.dropWhile (fun x => decide (x = '\'')) from
      (List.takeWhile_append_dropWhile (fun x => decide (x = '\'')) rest).symm]
  rw [rqr_true_append _ hq, rqr_true_exit _ (dropWhile_head?_ne_quote rest)]
  simp

/-! ## Lemmas about the boundary strips -/

theorem stripLeadPair_append (a b : List Char) (h : 2 ≤ a.length) :
    stripLeadPair (a ++ b) = stripLeadPair a ++ b := by
  match a with
  | c1 :: c2 :: t =>
    simp only [List.cons_append, stripLeadPair]
    split
    · rfl
    · simp
  | [] => simp at h
  | [c] => simp at h

theorem stripTrailPair_append (x y : List Char) (h : 2 ≤ y.length) :
    stripTrailPair (x ++ y) = x ++ stripTrailPair y := by
  rw [stripTrailPair, stripTrailPair, List.reverse_append,
    stripLeadPair_append _ _ (by simpa using h), List.reverse_append,
    List.reverse_reverse]

theorem stripLeadPair_quotes (r : List Char) :
    stripLeadPair ('\'' :: '\'' :: r) = r := by
  simp [stripLeadPair]

theorem stripLeadPair_cons_ne {c : Char} (r : List Char) (h : c ≠ '\'') :
    stripLeadPair ('\'' :: c :: r) = '\'' :: c :: r := by
  simp [stripLeadPair, h]

theorem stripTrailPair_pair_ne {c : Char} (h : c ≠ '\'') :
    stripTrailPair [c, '\''] = [c, '\''] := by
  simp [stripTrailPair, stripLeadPair, h]

theorem stripTrailPair_two_quotes : stripTrailPair ['\'', '\''] = [] := by
  decide

/-! ## The round-trip core induction

`MS`: de-quoting from inside a single-quoted span that closes right after the
substituted text recovers the original text.  `MT`: the same with a trailing
`''` pair stripped. -/

theorem dq_roundtrip_core :
    ∀ (n : Nat) (s : List Char), s.length ≤ n →
      dq .sgl (replaceQuoteRuns false s ++ ['\'']) = some s ∧
      dq .sgl (stripTrailPair (replaceQuoteRuns false s ++ ['\''])) = some s := by
  intro n
  induction n with
  | zero =>
    intro s hs
    have hnil : s = [] := List.eq_nil_of_length_eq_zero (Nat.le_zero.mp hs)
    subst hnil
    exact ⟨by decide, by decide⟩
  | succ n ih =>
    intro s hs
    cases s with
    | nil => exact ⟨by decide, by decide⟩
    | cons c rest =>
      have hrestlen : rest.length ≤ n := by
        simpa using Nat.succ_le_succ_iff.mp hs
      by_cases hc : c = '\''
      · subst hc
        -- a maximal quote run opens the string
        have hrest : rest.takeWhile (fun x => decide (x = '\'')) ++
            rest.dropWhile (fun x => decide (x = '\'')) = rest :=
          List.takeWhile_append_dropWhile (fun x => decide (x = '\'')) rest
        have hql : ∀ x ∈ '\'' :: rest.takeWhile (fun x => decide (x = '\'')), x = '\'' := by
          intro x hx
          rcases List.mem_cons.mp hx with h | h
          · exact h
          · simpa using List.mem_takeWhile_imp h
        have hr'len : (rest.dropWhile (fun x => decide (x = '\''))).length ≤ n :=
          le_trans
            ((List.dropWhile_sublist (l := rest) (fun x => decide (x = '\''))).length_le)
            hrestlen
        have ihr := ih (rest.dropWhile (fun x => decide (x = '\''))) hr'len
        have hdbl1 : ∀ x ∈ '\'' :: rest.takeWhile (fun x => decide (x = '\'')), x ≠ '"' := by
          intro x hx
          rw [hql x hx]
          decide
        have hdbl2 : ∀ x ∈ '\'' :: rest.takeWhile (fun x => decide (x = '\'')),
            dqLiteral x = true := by
          intro x hx
          rw [hql x hx]
          decide
        constructor
        · -- MS
          rw [rqr_decomp rest]
          rw [show ('\'' :: '"' :: ('\'' :: rest.takeWhile (fun x => decide (x = '\''))) ++
              '"' :: '\'' ::
                replaceQuoteRuns false (rest.dropWhile (fun x => decide (x = '\'')))) ++
              ['\''] =
              '\'' :: '"' :: (('\'' :: rest.takeWhile (fun x => decide (x = '\''))) ++
              '"' :: '\'' ::
                (replaceQuoteRuns false (rest.dropWhile (fun x => decide (x = '\''))) ++
                  ['\''])) by simp]
          rw [dq, if_pos rfl, dq, if_neg (by decide), if_pos rfl,
            dq_dbl_append _ hdbl1 hdbl2, dq, if_pos rfl, ihr.1]
          simp only [Option.map_some', Option.some.injEq, List.cons_append]
          rw [hrest]
        · -- MT
          rw [rqr_decomp rest]
          rw [show ('\'' :: '"' :: ('\'' :: rest.takeWhile (fun x => decide (x = '\''))) ++
              '"' :: '\'' ::
                replaceQuoteRuns false (rest.dropWhile (fun x => decide (x = '\'')))) ++
              ['\''] =
              ('\'' :: '"' :: ('\'' :: rest.takeWhile (fun x => decide (x = '\''))) ++
              ['"']) ++ ('\'' ::
                (replaceQuoteRuns false (rest.dropWhile (fun x => decide (x = '\''))) ++
                  ['\''])) by simp]
          rw [stripTrailPair_append _ _ (by simp)]
          by_cases hr' : rest.dropWhile (fun x => decide (x = '\'')) = []
          · rw [hr']
            rw [show replaceQuoteRuns false [] = [] from rfl]
            rw [show ('\'' : Char) :: ([] ++ ['\'']) = ['\'', '\''] by simp,
              stripTrailPair_two_quotes, List.append_nil]
            rw [show ('\'' :: '"' :: ('\'' :: rest.takeWhile (fun x => decide (x = '\''))) ++
              ['"']) = '\'' :: '"' :: (('\'' :: rest.takeWhile (fun x => decide (x = '\''))) ++
              '"' :: []) by simp]
            rw [dq, if_pos rfl, dq, if_neg (by decide), if_pos rfl,
              dq_dbl_append _ hdbl1 hdbl2]
            rw [show dq .out [] = some [] from rfl]
            have htw : rest.takeWhile (fun x => decide (x = '\'')) = rest := by
              conv_rhs => rw [← hrest]
              rw [hr', List.append_nil]
            simp only [Option.map_some', Option.some.injEq, List.append_nil, htw]
          · have hrq : replaceQuoteRuns false (rest.dropWhile (fun x => decide (x = '\''))) ≠ [] :=
              rqr_ne_nil _ hr'
            rw [show ('\'' : Char) ::
                (replaceQuoteRuns false (rest.dropWhile (fun x => decide (x = '\''))) ++
                  ['\'']) = ['\''] ++
                (replaceQuoteRuns false (rest.dropWhile (fun x => decide (x = '\''))) ++
                  ['\'']) by simp]
            rw [stripTrailPair_append _ _ (by
              rcases List.exists_cons_of_ne_nil hrq with ⟨y, t, hy⟩
              simp [hy])]
            rw [show ('\'' :: '"' :: ('\'' :: rest.takeWhile (fun x => decide (x = '\''))) ++
                ['"']) ++ (['\''] ++
                  stripTrailPair
                    (replaceQuoteRuns false (rest.dropWhile (fun x => decide (x = '\''))) ++
                      ['\''])) =
                '\'' :: '"' :: (('\'' :: rest.takeWhile (fun x => decide (x = '\''))) ++
                '"' :: ('\'' ::
                  stripTrailPair
                    (replaceQuoteRuns false (rest.dropWhile (fun x => decide (x = '\''))) ++
                      ['\'']))) by simp]
            rw [dq, if_pos rfl, dq, if_neg (by decide), if_pos rfl,
              dq_dbl_append _ hdbl1 hdbl2, dq, if_pos rfl, ihr.2]
            simp only [Option.map_some', Option.some.injEq, List.cons_append]
            rw [hrest]
      · -- the string opens with a non-quote character
        have ihrest := ih rest hrestlen
        constructor
        · -- MS
          rw [rqr_cons_ne rest hc, List.cons_append, dq_sgl_cons _ hc, ihrest.1]
          rfl
        · -- MT
          by_cases hrest0 : rest = []
          · subst hrest0
            rw [show replaceQuoteRuns false [c] ++ ['\''] = [c, '\''] by
                rw [rqr_cons_ne [] hc]; rfl,
              stripTrailPair_pair_ne hc, dq_sgl_cons _ hc]
            rw [show dq .sgl ['\''] = some [] from rfl]
            rfl
          · have hrq : replaceQuoteRuns false rest ≠ [] := rqr_ne_nil rest hrest0
            rw [rqr_cons_ne rest hc,
              show (c :: replaceQuoteRuns false rest) ++ ['\''] =
                [c] ++ (replaceQuoteRuns false rest ++ ['\'']) by simp,
              stripTrailPair_append _ _ (by
                rcases List.exists_cons_of_ne_nil hrq with ⟨y, t, hy⟩
                simp [hy]),
              List.singleton_append, dq_sgl_cons _ hc, ihrest.2]
            rfl


theorem stripTrailPair_cons (a : Char) (y : List Char) (h : 2 ≤ y.length) :
    stripTrailPair (a :: y) = a :: stripTrailPair y := by
  rw [← List.singleton_append, stripTrailPair_append _ _ h, List.singleton_append]

/-- De-quoting a double-quoted span holding a quote run, then a continuation. -/
theorem dq_out_run_span (tw : List Char) (h : ∀ x ∈ tw, x = '\'') (B : List Char) :
    dq .out ('"' :: '\'' :: (tw ++ '"' :: B)) =
      (dq .out B).map (fun t => '\'' :: (tw ++ t)) := by
  rw [dq, if_neg (by decide), if_pos rfl,
    show ('\'' : Char) :: (tw ++ '"' :: B) = ('\'' :: tw) ++ '"' :: B by simp,
    dq_dbl_append ('\'' :: tw)
      (by
        intro x hx
        rcases List.mem_cons.mp hx with h' | h'
        · rw [h']; decide
        · rw [h x h']; decide)
      (by
        intro x hx
        rcases List.mem_cons.mp hx with h' | h'
        · rw [h']; decide
        · rw [h x h']; decide)
      B]
  cases dq .out B <;> simp

/-- Tokenizing `quoteString s` as one shell word recovers `s`, for every `s`. -/
theorem dequote_quoteString (s : List Char) : dequote (quoteString s) = some s := by
  by_cases hempty : s.isEmpty = true
  · have hnil : s = [] := by
      cases s with
      | nil => rfl
      | cons c rest => simp at hempty
    subst hnil
    decide
  · by_cases hsafe : s.all isSafeChar = true
    · rw [quoteString, if_neg hempty, if_pos hsafe, dequote]
      exact dq_out_safe s hsafe
    · cases s with
      | nil => simp at hempty
      | cons c rest =>
        rw [quoteString, if_neg hempty, if_neg hsafe, dequote]
        by_cases hc : c = '\''
        · subst hc
          have hrest : rest.takeWhile (fun x => decide (x = '\'')) ++
              rest.dropWhile (fun x => decide (x = '\'')) = rest :=
            List.takeWhile_append_dropWhile (fun x => decide (x = '\'')) rest
          have hql : ∀ x ∈ rest.takeWhile (fun x => decide (x = '\'')), x = '\'' := by
            intro x hx
            simpa using List.mem_takeWhile_imp hx
          rw [rqr_decomp rest]
          simp only [List.cons_append, List.append_assoc]
          rw [stripLeadPair_quotes]
          rw [show rest.takeWhile (fun x => decide (x = '\'')) ++
              ('"' :: '\'' ::
                (replaceQuoteRuns false (rest.dropWhile (fun x => decide (x = '\''))) ++
                  ['\''])) =
              (rest.takeWhile (fun x => decide (x = '\'')) ++ ['"']) ++
              ('\'' ::
                (replaceQuoteRuns false (rest.dropWhile (fun x => decide (x = '\''))) ++
                  ['\''])) by simp]
          rw [show ('"' : Char) :: '\'' ::
              ((rest.takeWhile (fun x => decide (x = '\'')) ++ ['"']) ++
              ('\'' ::
                (replaceQuoteRuns false (rest.dropWhile (fun x => decide (x = '\''))) ++
                  ['\'']))) =
              ('"' :: '\'' :: (rest.takeWhile (fun x => decide (x = '\'')) ++ ['"'])) ++
              ('\'' ::
                (replaceQuoteRuns false (rest.dropWhile (fun x => decide (x = '\''))) ++
                  ['\''])) by simp]
          rw [stripTrailPair_append _ _ (by simp)]
          by_cases hr' : rest.dropWhile (fun x => decide (x = '\'')) = []
          · rw [hr']
            rw [show replaceQuoteRuns false [] = [] from rfl]
            rw [show ('\'' : Char) :: ([] ++ ['\'']) = ['\'', '\''] by simp,
              stripTrailPair_two_quotes, List.append_nil]
            rw [show ('"' : Char) :: '\'' ::
                (rest.takeWhile (fun x => decide (x = '\'')) ++ ['"']) =
                '"' :: '\'' ::
                (rest.takeWhile (fun x => decide (x = '\'')) ++ '"' :: []) from rfl]
            rw [dq_out_run_span _ hql [], show dq .out [] = some [] from rfl]
            have htw : rest.takeWhile (fun x => decide (x = '\'')) = rest := by
              conv_rhs => rw [← hrest]
              rw [hr', List.append_nil]
            simp only [Option.map_some', Option.some.injEq, List.append_nil, htw]
          · have hrq : replaceQuoteRuns false
                (rest.dropWhile (fun x => decide (x = '\''))) ≠ [] :=
              rqr_ne_nil _ hr'
            rw [stripTrailPair_cons _ _ (by
              rcases List.exists_cons_of_ne_nil hrq with ⟨y, t, hy⟩
              simp [hy])]
            rw [show ('"' :: '\'' :: (rest.takeWhile (fun x => decide (x = '\'')) ++ ['"'])) ++
                ('\'' ::
                  stripTrailPair
                    (replaceQuoteRuns false (rest.dropWhile (fun x => decide (x = '\''))) ++
                      ['\''])) =
                '"' :: '\'' :: (rest.takeWhile (fun x => decide (x = '\'')) ++
                '"' :: ('\'' ::
                  stripTrailPair
                    (replaceQuoteRuns false (rest.dropWhile (fun x => decide (x = '\''))) ++
                      ['\'']))) by simp]
            rw [dq_out_run_span _ hql, dq, if_pos rfl,
              (dq_roundtrip_core (rest.dropWhile (fun x => decide (x = '\''))).length
                (rest.dropWhile (fun x => decide (x = '\''))) le_rfl).2]
            simp only [Option.map_some', Option.some.injEq]
            rw [hrest]
        · rw [rqr_cons_ne rest hc]
          simp only [List.cons_append]
          rw [stripLeadPair_cons_ne _ hc]
          rw [stripTrailPair_cons _ _ (by simp)]
          rw [dq, if_pos rfl]
          have hmt := (dq_roundtrip_core (c :: rest).length (c :: rest) le_rfl).2
          rw [rqr_cons_ne rest hc, List.cons_append] at hmt
          exact hmt

/-! ## The substitution agrees with the spec-side run-wise formulation -/

theorem rqr_eq_spec_aux :
    ∀ (n : Nat) (s : List Char), s.length ≤ n →
      replaceQuoteRuns false s = replaceRunsSpec s := by
  intro n
  induction n with
  | zero =>
    intro s hs
    have hnil : s = [] := List.eq_nil_of_length_eq_zero (Nat.le_zero.mp hs)
    subst hnil
    simp [replaceRunsSpec, maximalRuns, concatMapRuns, replaceQuoteRuns]
  | succ n ih =>
    intro s hs
    cases s with
    | nil => simp [replaceRunsSpec, maximalRuns, concatMapRuns, replaceQuoteRuns]
    | cons c rest =>
      have hrestlen : rest.length ≤ n := by
        simpa using Nat.succ_le_succ_iff.mp hs
      by_cases hc : c = '\''
      · subst hc
        have hql : ('\'' :: rest.takeWhile (fun x => decide (x = '\''))).all
            (fun x => decide (x = '\'')) = true := by
          rw [List.all_eq_true]
          intro x hx
          rcases List.mem_cons.mp hx with h' | h'
          · rw [h']; decide
          · simpa using List.mem_takeWhile_imp h'
        have hr'len : (rest.dropWhile (fun x => decide (x = '\''))).length ≤ n :=
          le_trans
            ((List.dropWhile_sublist (l := rest) (fun x => decide (x = '\''))).length_le)
            hrestlen
        rw [rqr_decomp rest, replaceRunsSpec, maximalRuns, if_pos rfl, concatMapRuns,
          if_pos hql, ih _ hr'len, replaceRunsSpec]
        simp
      · have htw : ∀ x ∈ rest.takeWhile (fun x => !decide (x = '\'')), x ≠ '\'' := by
          intro x hx
          simpa using List.mem_takeWhile_imp hx
        have hdwlen : (rest.dropWhile (fun x => !decide (x = '\''))).length ≤ n :=
          le_trans
            ((List.dropWhile_sublist (l := rest) (fun x => !decide (x = '\''))).length_le)
            hrestlen
        have hgrp : ((c :: rest.takeWhile (fun x => !decide (x = '\''))).all
            (fun x => decide (x = '\''))) = false := by
          simp [hc]
        rw [replaceRunsSpec, maximalRuns, if_neg hc, concatMapRuns, hgrp]
        simp only [Bool.false_eq_true, reduceIte]
        conv_lhs =>
          rw [show rest = rest.takeWhile (fun x => !decide (x = '\'')) ++
            rest.dropWhile (fun x => !decide (x = '\'')) from
            (List.takeWhile_append_dropWhile (fun x => !decide (x = '\'')) rest).symm]
        rw [show (c :: (rest.takeWhile (fun x => !decide (x = '\'')) ++
            rest.dropWhile (fun x => !decide (x = '\'')))) =
            (c :: rest.takeWhile (fun x => !decide (x = '\''))) ++
            rest.dropWhile (fun x => !decide (x = '\'')) by simp]
        rw [rqr_false_append _ (by
            intro x hx
            rcases List.mem_cons.mp hx with h' | h'
            · rw [h']; exact hc
            · exact htw x h')]
        rw [ih _ hdwlen, replaceRunsSpec]

theorem rqr_eq_spec (s : List Char) :
    replaceQuoteRuns false s = replaceRunsSpec s :=
  rqr_eq_spec_aux s.length s le_rfl

/-- `quoteString` never returns the empty string. -/
theorem quoteString_ne_nil (s : List Char) : quoteString s ≠ [] := by
  intro h
  have hrt := dequote_quoteString s
  rw [h] at hrt
  have hs : s = [] := by
    have : (some [] : Option (List Char)) = some s := hrt
    simpa using this.symm
  subst hs
  exact absurd h (by decide)

/-! ## Step equations of the template compiler -/

theorem joinSpace_map_ne_nil (elems : List (List Char)) (h : elems ≠ []) :
    joinSpace (elems.map quoteString) ≠ [] := by
  match elems with
  | [] => exact absurd rfl h
  | [e] =>
    simpa [joinSpace] using quoteString_ne_nil e
  | e1 :: e2 :: rest =>
    simp only [List.map_cons, joinSpace]
    intro hcontr
    rcases List.append_eq_nil.mp hcontr with ⟨_, h2⟩
    simp at h2

theorem quote_scalar_step (x p : List Char) (ps : List (List Char))
    (s : List Char) (as : List ShellArg) :
    quote (x :: p :: ps) (.scalar s :: as) =
      quote ((x ++ quoteString s ++ p) :: ps) as := rfl

theorem quote_pieces_only (x : List Char) (ps : List (List Char)) :
    quote (x :: ps) [] = x ++ flattenPieces ps := by
  cases ps <;> rfl

theorem quote_empty_arr_lead_space (x p : List Char) (ps : List (List Char))
    (as : List ShellArg) :
    quote (x :: (' ' :: p) :: ps) (.arr [] :: as) = quote ((x ++ p) :: ps) as := rfl

theorem quote_empty_arr_trail_space (x p : List Char) (ps : List (List Char))
    (as : List ShellArg) (hp : p.head? ≠ some ' ') :
    quote ((x ++ [' ']) :: p :: ps) (.arr [] :: as) = quote ((x ++ p) :: ps) as := by
  rw [quote, quoteAux]
  simp only [List.map_nil, joinSpace, List.isEmpty_nil, reduceIte]
  rw [if_neg hp, if_pos (List.getLast?_concat x), List.dropLast_concat]
  rfl

theorem quote_empty_arr_no_space (x p : List Char) (ps : List (List Char))
    (as : List ShellArg) (hp : p.head? ≠ some ' ') (hx : x.getLast? ≠ some ' ') :
    quote (x :: p :: ps) (.arr [] :: as) = quote ((x ++ p) :: ps) as := by
  rw [quote, quoteAux]
  simp only [List.map_nil, joinSpace, List.isEmpty_nil, reduceIte]
  rw [if_neg hp, if_neg hx]
  rfl

theorem quote_arr_step (x p : List Char) (ps : List (List Char))
    (elems : List (List Char)) (as : List ShellArg) (h : elems ≠ []) :
    quote (x :: p :: ps) (.arr elems :: as) =
      quote ((x ++ joinSpace (elems.map quoteString) ++ p) :: ps) as := by
  rw [quote, quoteAux]
  rw [if_neg (by
    intro hcontr
    exact joinSpace_map_ne_nil elems h (List.isEmpty_iff.mp hcontr))]
  rfl

/-! ## Lemmas about the effect monad and composed tag functions -/

theorem Eff.bind_assoc {α β γ : Type} (x : Eff α) (f : α → Eff β) (g : β → Eff γ) :
    Eff.bind (Eff.bind x f) g = Eff.bind x (fun a => Eff.bind (f a) g) := by
  funext tr
  rcases hx : x tr with ⟨r, tr'⟩
  cases r <;> simp [Eff.bind, hx]

theorem runFinalizers_append (l : List (Option (Eff Unit))) (f : Option (Eff Unit)) :
    runFinalizers (l ++ [f]) =
      Eff.bind (runFinalizers l) (fun _ => runOptFin f) := by
  induction l with
  | nil =>
    funext tr
    rcases hf : runOptFin f tr with ⟨r, tr'⟩
    cases r <;> simp [runFinalizers, Eff.bind, Eff.pure, hf]
  | cons f0 l ih =>
    simp [runFinalizers, ih, Eff.bind_assoc]

theorem chainTagFunction_finalizers {T : Type} (ps : List (MapParameters T T)) :
    ∀ (b : TagFunction T), (chainTagFunction b ps).finalizers =
      b.finalizers ++ ps.map (fun p => p.finalize) := by
  induction ps with
  | nil => intro b; simp [chainTagFunction]
  | cons p ps ih =>
    intro b
    simp only [chainTagFunction, List.foldl_cons]
    have := ih (b.map p)
    simp only [chainTagFunction] at this
    rw [this, TagFunction.map]
    simp

theorem map_call_shape {T U : Type} (t : TagFunction T) (p : MapParameters T U)
    (pieces : List (List Char)) (args : List ShellArg) (tr : List TraceEv) :
    (t.map p).call pieces args tr =
      Eff.tryFinally
        (Eff.bind (applyPre p.pre (quote pieces args)) (fun c =>
          Eff.bind (t.exec c) (fun r => p.post r)))
        (runFinalizers ((t.map p).finalizers)) tr := by
  simp only [TagFunction.map, runFinalizers_append]

theorem tryFinally_error_after {α : Type} (body : Eff α) (fin : Eff Unit)
    (tr : List TraceEv) (e : Nat) (tr' : List TraceEv)
    (hbody : body tr = (.error e, tr')) (hfin : (fin tr').1 = .ok ()) :
    Eff.tryFinally body fin tr = (.error e, (fin tr').2) := by
  rw [Eff.tryFinally, hbody]
  rcases hf : fin tr' with ⟨r, tr''⟩
  rw [hf] at hfin
  cases r with
  | ok u => simp [hf]
  | error e2 => simp at hfin

theorem runFinalizers_loggers (ns : List Nat) :
    ∀ (tr : List TraceEv),
      runFinalizers (ns.map (fun i => some (Eff.emit (.finEv i)))) tr =
        (.ok (), tr ++ ns.map TraceEv.finEv) := by
  induction ns with
  | nil => intro tr; simp [runFinalizers, Eff.pure]
  | cons n ns ih =>
    intro tr
    simp [runFinalizers, runOptFin, Eff.bind, Eff.emit, ih]

/-! ## Claim theorems -/

/-- C1: for every string `s`, tokenizing `quoteString s` under the shell's
quoting grammar (the reference de-quoter handling single-quoted spans,
double-quoted spans and bare safe words) as a single argument recovers exactly
`s` — in particular for the empty string, `'`, `''`, `' '`, and quote runs of
any length. -/
theorem c1_quoteString_roundtrip : ∀ s : List Char, dequote (quoteString s) = some s :=
  dequote_quoteString

/-- C2: `quoteString` returns the two-character token `''` on the empty string,
and on every input realizes the formal description: wrap in single quotes with
every maximal run of `'` replaced by `'"<run>"'` (run-wise substitution), then
strip a leading `''` pair at position 0 and a trailing `''` pair — as captured
by the independently formulated `quoteStringSpec`. -/
theorem c2_quoteString_formal_description :
    quoteString [] = ['\'', '\''] ∧
    ∀ s : List Char, quoteString s = quoteStringSpec s := by
  refine ⟨by decide, ?_⟩
  intro s
  simp [quoteString, quoteStringSpec, rqr_eq_spec]

/-- C3 counterexample: the empty string contains no character outside the safe
class (vacuously), yet `quoteString` does not return it unchanged — it returns
`''`. -/
theorem c3_empty_string_counterexample :
    ([] : List Char).all isSafeChar = true ∧ quoteString [] ≠ [] := by
  decide

/-- C3 (amended): for every **nonempty** string `s` all of whose characters lie
in the safe class, `quoteString s = s`.  (The empty string is excluded: the
safe-class regex requires at least one character, and the empty string is
quoted as `''`.) -/
theorem c3_safe_class_identity :
    ∀ s : List Char, s ≠ [] → s.all isSafeChar = true → quoteString s = s := by
  intro s hne hsafe
  have hiem : s.isEmpty = false := by
    cases s with
    | nil => exact absurd rfl hne
    | cons a l => rfl
  rw [quoteString, if_neg (by simp [hiem]), if_pos hsafe]

theorem c3_safe_class_identity_witness :
    (['a', '.', 'b'] : List Char) ≠ [] ∧
    (['a', '.', 'b'] : List Char).all isSafeChar = true ∧
    quoteString ['a', '.', 'b'] = ['a', '.', 'b'] :=
  ⟨by decide, by decide, c3_safe_class_identity ['a', '.', 'b'] (by decide) (by decide)⟩

/-- C4: each interpolated empty array contributes the empty string and absorbs
exactly one adjacent space (a leading space of the following fragment if
present, otherwise a trailing space of the accumulated result), at any
position; non-empty arrays are quoted element-wise and joined with single
spaces, scalars are quoted, and all contributions are concatenated with the
literal fragments in template order — stated as general step equations of
`quote` plus the test-suite instances (including adjacent empty arrays). -/
theorem c4_template_compile :
    (∀ (x p : List Char) (ps : List (List Char)) (as : List ShellArg),
      quote (x :: (' ' :: p) :: ps) (.arr [] :: as) = quote ((x ++ p) :: ps) as) ∧
    (∀ (x p : List Char) (ps : List (List Char)) (as : List ShellArg),
      p.head? ≠ some ' ' →
      quote ((x ++ [' ']) :: p :: ps) (.arr [] :: as) = quote ((x ++ p) :: ps) as) ∧
    (∀ (x p : List Char) (ps : List (List Char)) (as : List ShellArg),
      p.head? ≠ some ' ' → x.getLast? ≠ some ' ' →
      quote (x :: p :: ps) (.arr [] :: as) = quote ((x ++ p) :: ps) as) ∧
    (∀ (x p : List Char) (ps : List (List Char)) (elems : List (List Char))
      (as : List ShellArg), elems ≠ [] →
      quote (x :: p :: ps) (.arr elems :: as) =
        quote ((x ++ joinSpace (elems.map quoteString) ++ p) :: ps) as) ∧
    (∀ (x p : List Char) (ps : List (List Char)) (s : List Char)
      (as : List ShellArg),
      quote (x :: p :: ps) (.scalar s :: as) =
        quote ((x ++ quoteString s ++ p) :: ps) as) ∧
    (∀ (x : List Char) (ps : List (List Char)),
      quote (x :: ps) [] = x ++ flattenPieces ps) ∧
    quote [['a', ' '], [' ', 'b']] [.arr []] = ['a', ' ', 'b'] ∧
    quote [['a'], ['b']] [.arr []] = ['a', 'b'] ∧
    quote [[], [' ', 'b']] [.arr []] = ['b'] ∧
    quote [[], ['b']] [.arr []] = ['b'] ∧
    quote [['a', ' '], []] [.arr []] = ['a'] ∧
    quote [['a'], []] [.arr []] = ['a'] ∧
    quote [[], [], [' ', 'a', ' '], []] [.arr [], .arr [], .arr []] = ['a'] ∧
    quote [['l', 's', ' ', '-', 'l', ' '], [' '], []]
        [.scalar ['$', 'f', 'o', 'o'], .scalar ['3', '1', '3', '3', '7']] =
      ['l', 's', ' ', '-', 'l', ' ', '\'', '$', 'f', 'o', 'o', '\'', ' ',
        '3', '1', '3', '3', '7'] ∧
    quote [['c', 'o', 'm', 'm', 'a', 'n', 'd', ' '], []]
        [.arr [['5'], ['t', 'r', 'u', 'e'], ['-', 'v'],
          ['t', 'h', 'i', 's', ' ', 'i', 's', ' ', 'a', ' ',
            's', 'e', 'n', 't', 'e', 'n', 'c', 'e']]] =
      ['c', 'o', 'm', 'm', 'a', 'n', 'd', ' ', '5', ' ', 't', 'r', 'u', 'e',
        ' ', '-', 'v', ' ', '\'', 't', 'h', 'i', 's', ' ', 'i', 's', ' ', 'a',
        ' ', 's', 'e', 'n', 't', 'e', 'n', 'c', 'e', '\''] := by
  refine ⟨quote_empty_arr_lead_space, quote_empty_arr_trail_space,
    quote_empty_arr_no_space, quote_arr_step, quote_scalar_step,
    quote_pieces_only, ?_, ?_, ?_, ?_, ?_, ?_, ?_, ?_, ?_⟩ <;> decide

theorem c4_template_compile_witness :
    quote [['a', ' '], ['b']] [.arr []] = quote [['a'] ++ ['b']] [] ∧
    quote [['x'], ['y']] [.arr []] = quote [['x'] ++ ['y']] [] ∧
    quote [['u'], ['v']] [.arr [['w']]] =
      quote [['u'] ++ joinSpace ([['w']].map quoteString) ++ ['v']] [] :=
  ⟨c4_template_compile.2.1 ['a'] ['b'] [] [] (by decide),
    c4_template_compile.2.2.1 ['x'] ['y'] [] [] (by decide) (by decide),
    c4_template_compile.2.2.2.1 ['u'] ['v'] [] [['w']] [] (by decide)⟩

/-- C5 counterexample: with two logging transforms attached in order 1 then 2,
an invocation runs layer 2's `pre` first (it receives the compiled command),
then layer 1's `pre`, executes, then layer 1's `post`, then layer 2's `post` —
not the claimed attach-order `pre`s and reverse-order `post`s. -/
theorem c5_order_counterexample :
    ((((wrapBase loggingExec).map (loggingLayer 1)).map (loggingLayer 2)).call
        [['l', 's']] [] []).2 =
      [.preEv 2, .preEv 1, .execEv ['l', 's'], .postEv 1, .postEv 2,
        .finEv 1, .finEv 2] ∧
    ((((wrapBase loggingExec).map (loggingLayer 1)).map (loggingLayer 2)).call
        [['l', 's']] [] []).2 ≠
      [.preEv 1, .preEv 2, .execEv ['l', 's'], .postEv 2, .postEv 1,
        .finEv 1, .finEv 2] := by
  constructor <;> decide

/-- C5 (amended): for a tag function built by attaching transforms A then B,
every invocation applies the `pre` stages in **reverse** attach order — B's
`pre` receives the compiled command, A's `pre` its output — before execution,
and applies the `post` stages in **attach** order (A's `post` on the execution
result, then B's `post`) after execution, with the accumulated finalizers (A's,
then B's) in a final cleanup region. -/
theorem c5_pre_post_order {α β γ : Type} (base : TagFunction α)
    (A : MapParameters α β) (B : MapParameters β γ)
    (pieces : List (List Char)) (args : List ShellArg) (tr : List TraceEv) :
    ((base.map A).map B).call pieces args tr =
      Eff.tryFinally
        (Eff.bind (applyPre B.pre (quote pieces args)) (fun c2 =>
          Eff.bind (applyPre A.pre c2) (fun c1 =>
            Eff.bind (base.exec c1) (fun r =>
              Eff.bind (A.post r) (fun u => B.post u)))))
        (Eff.bind (runFinalizers base.finalizers) (fun _ =>
          Eff.bind (runOptFin A.finalize) (fun _ => runOptFin B.finalize))) tr := by
  simp only [TagFunction.map, runFinalizers_append, Eff.bind_assoc]

/-- C6: for every chain of `.map` attachments, the finalizer lists accumulate
in attach order with none skipped or duplicated; a mapped call runs its body
inside a cleanup region that runs exactly the node's accumulated finalizer
list; when the body raises and the finalizers complete normally, the raised
error reaches the caller only after the finalizers' effects; logging
finalizers each fire exactly once, in attach order; and a concrete two-layer
chain whose second `post` raises yields that error after both finalize events. -/
theorem c6_finalizer_guarantees :
    (∀ (T : Type) (b : TagFunction T) (ps : List (MapParameters T T)),
      (chainTagFunction b ps).finalizers =
        b.finalizers ++ ps.map (fun p => p.finalize)) ∧
    (∀ (T U : Type) (t : TagFunction T) (p : MapParameters T U)
      (pieces : List (List Char)) (args : List ShellArg) (tr : List TraceEv),
      (t.map p).call pieces args tr =
        Eff.tryFinally
          (Eff.bind (applyPre p.pre (quote pieces args)) (fun c =>
            Eff.bind (t.exec c) (fun r => p.post r)))
          (runFinalizers ((t.map p).finalizers)) tr) ∧
    (∀ (α : Type) (body : Eff α) (fins : List (Option (Eff Unit)))
      (tr : List TraceEv) (e : Nat) (tr' : List TraceEv),
      body tr = (.error e, tr') → ((runFinalizers fins) tr').1 = .ok () →
      Eff.tryFinally body (runFinalizers fins) tr =
        (.error e, ((runFinalizers fins) tr').2)) ∧
    (∀ (ns : List Nat) (tr : List TraceEv),
      runFinalizers (ns.map (fun i => some (Eff.emit (.finEv i)))) tr =
        (.ok (), tr ++ ns.map TraceEv.finEv)) ∧
    (((wrapBase loggingExec).map (loggingLayer 1)).map (raisingLayer 2 7)).call
        [['l', 's']] [] [] =
      (.error 7, [.preEv 2, .preEv 1, .execEv ['l', 's'], .postEv 1, .postEv 2,
        .finEv 1, .finEv 2]) :=
  ⟨fun _ b ps => chainTagFunction_finalizers ps b,
    fun _ _ t p pieces args tr => map_call_shape t p pieces args tr,
    fun _ body fins tr e tr' h1 h2 =>
      tryFinally_error_after body (runFinalizers fins) tr e tr' h1 h2,
    fun ns tr => runFinalizers_loggers ns tr,
    rfl⟩

theorem c6_finalizer_guarantees_witness :
    Eff.tryFinally (α := Nat) (fun tr => (.error 5, tr ++ [.postEv 9]))
        (runFinalizers [some (Eff.emit (.finEv 1)), none]) [] =
      (.error 5, [.postEv 9, .finEv 1]) := by
  have h := c6_finalizer_guarantees.2.2.1 Nat
    (fun tr => (.error 5, tr ++ [.postEv 9]))
    [some (Eff.emit (.finEv 1)), none] [] 5 [.postEv 9] rfl rfl
  exact h.trans rfl

/-- C7: if the timer fires before the work settles, `action` raises
`TimeoutError`; a work-raised `SkipError` is not re-raised (the action resolves
with `undefined`); any other work error is re-raised unchanged; when the work
completes first its value is returned and the timer is cleared; and the timer
is armed with `config.timeoutSeconds`, defaulting to 120 seconds. -/
theorem c7_action_outcomes :
    (∀ (T : Type) (w : Except ActErr T) (cfg : Option ActionConfig),
      (actionModel w true cfg).1 = .error .timeoutErr) ∧
    (∀ (T : Type) (cfg : Option ActionConfig),
      (actionModel (T := T) (.error .skipErr) false cfg).1 = .ok none) ∧
    (∀ (T : Type) (e : ActErr) (cfg : Option ActionConfig), e ≠ .skipErr →
      (actionModel (T := T) (.error e) false cfg).1 = .error e) ∧
    (∀ (T : Type) (v : T) (cfg : Option ActionConfig),
      (actionModel (.ok v) false cfg).1 = .ok (some v) ∧
      (actionModel (.ok v) false cfg).2.1.timeoutId = none ∧
      (actionModel (.ok v) false cfg).2.2.clears = 1) ∧
    (∀ (T : Type) (w : Except ActErr T) (tf : Bool),
      (actionModel w tf none).2.2.sets = [120]) ∧
    (∀ (T : Type) (w : Except ActErr T) (tf : Bool) (t : ℚ),
      (actionModel w tf (some { timeoutSeconds := some t })).2.2.sets = [t]) := by
  refine ⟨?_, ?_, ?_, ?_, ?_, ?_⟩
  · intro T w cfg
    simp [actionModel, timeoutPromiseModel, clearTimeoutCookie]
  · intro T cfg
    simp [actionModel, timeoutPromiseModel, clearTimeoutCookie]
  · intro T e cfg he
    cases e with
    | skipErr => exact absurd rfl he
    | timeoutErr => simp [actionModel, timeoutPromiseModel, clearTimeoutCookie]
    | shellErr code => simp [actionModel, timeoutPromiseModel, clearTimeoutCookie]
    | otherErr n => simp [actionModel, timeoutPromiseModel, clearTimeoutCookie]
  · intro T v cfg
    refine ⟨?_, ?_, ?_⟩ <;>
      simp [actionModel, timeoutPromiseModel, clearTimeoutCookie]
  · intro T w tf
    cases tf <;> cases w <;>
      simp [actionModel, timeoutPromiseModel, clearTimeoutCookie,
        effectiveTimeoutSeconds, defaultConfig]
  · intro T w tf t
    cases tf <;> cases w <;>
      simp [actionModel, timeoutPromiseModel, clearTimeoutCookie,
        effectiveTimeoutSeconds, defaultConfig]

theorem c7_action_outcomes_witness :
    (actionModel (T := Nat) (.error (.otherErr 3)) false none).1 =
      .error (.otherErr 3) ∧
    (actionModel (T := Nat) (.ok 5) true none).1 = .error .timeoutErr ∧
    (actionModel (T := Nat) (.error .skipErr) false none).1 = .ok none :=
  ⟨c7_action_outcomes.2.2.1 Nat (.otherErr 3) none (by decide),
    c7_action_outcomes.1 Nat (.ok 5) none,
    c7_action_outcomes.2.1 Nat none⟩

/-- C8: in the signal-passing supervisor (modelled from the spec, see
`actionWithSignalModel`), when the timer fires before the work settles the
cancellation signal is aborted — observable by the work function — and then
the distinguished timeout failure is raised to the caller (the abort event
precedes the raise event). -/
theorem c8_signal_on_timeout :
    ∀ (T : Type) (w : Except ActErr T),
      (actionWithSignalModel w true).1 = .error .timeoutErr ∧
      (actionWithSignalModel w true).2.1 = true ∧
      (actionWithSignalModel w true).2.2 = [.abortSignal, .raiseTimeout] :=
  fun _ _ => ⟨rfl, rfl, rfl⟩

/-- C9: the current executor (`execOpt`) spawns, writes the supplied stdin
payload fully, closes the input stream, and only then collects output and exit
status; with no stdin the input stream is closed immediately after spawn.  The
legacy executor (`shOptBin`, earlier revision of mod.ts) instead awaits the
output collection *before* writing the stdin payload and never closes the
input stream — the failing behavior behind the code_bug verdict. -/
theorem c9_stdin_ordering :
    (∀ payload : List Nat,
      execOptEvents (some payload) =
        [.spawn, .writeStdin payload, .closeStdin, .collectOutput] ∧
      writesThenClosesThenCollects (execOptEvents (some payload)) payload) ∧
    execOptEvents none = [.spawn, .closeStdin, .collectOutput] ∧
    shOptBinEvents (some [120]) =
      [.spawn, .collectOutput, .writeStdin [120], .closeProcess] ∧
    ¬ writesThenClosesThenCollects (shOptBinEvents (some [120])) [120] := by
  refine ⟨fun payload => ⟨rfl, ⟨[.spawn], [], [], [], by simp [execOptEvents]⟩⟩,
    rfl, rfl, ?_⟩
  rintro ⟨a, b, c, d, h⟩
  have hmem : ExecEv.closeStdin ∈ shOptBinEvents (some [120]) := by
    rw [h]
    simp
  exact absurd hmem (by decide)

/-- C10: when the work raises `SkipError` (and the timer has not fired),
`action` resolves successfully and the value handed to the caller is
`undefined` (modelled as `none`) — despite the declared result type `T`. -/
theorem c10_skip_returns_undefined :
    ∀ (T : Type) (cfg : Option ActionConfig),
      (actionModel (T := T) (.error .skipErr) false cfg).1 = .ok none := by
  intro T cfg
  simp [actionModel, timeoutPromiseModel, clearTimeoutCookie]
